import Mathlib

/-!
selective-pintrace: range registry, trace gate and log

A shallow embedding of `selective-pintrace.cpp`.

* `Range` is `std::pair<int, int>`; the tool's entry points take
  `unsigned long long` values, and `Range(a, b)` converts each of them to
  `int` (`toInt`).
* `std::set<Range, RangeCompare>` is represented by its in-order sequence, a
  `List Range`.  The three container operations the tool uses (`find`,
  `insert`, `erase`) follow the searches the library performs: the lower bound
  of a key is the first element that is not less than the key, the upper bound
  the first element the key is less than.  On a sequence that the key
  partitions (every sorted sequence of well-formed ranges, `RangeSet.Valid`,
  and every sequence of at most one element) the tree descent of the library
  and the scan of the in-order sequence reach the same position.  Once a pair
  with `first > second` is stored the descent depends on the shape of the
  tree and the scan need not follow it; the general theorems below are stated
  on `Valid` registries or hold for any search, and each evaluation on a
  registry that holds such a pair is on a set of at most three elements whose
  descent is spelled out with it.
* The log file is the list of its lines, without the trailing newline.
* Pin itself is external.  The calls that `Instruction` inserts are kept in
  `State.wired`; `execute` is Pin running an instruction whose predicate holds.
-/

namespace SelectivePintrace

/-- The stored range type, `typedef std::pair<int, int> Range`. -/
abbrev Range := Int × Int

/-- Conversion of an `unsigned long long` to `int`: the low 32 bits, read as a
two's complement number. -/
def toInt (v : Nat) : Int :=
  if v % 2 ^ 32 < 2 ^ 31 then ((v % 2 ^ 32 : Nat) : Int) else ((v % 2 ^ 32 : Nat) : Int) - 2 ^ 32

/-- The constructor call `Range(a, b)` on two `unsigned long long` values. -/
def mkRange (a b : Nat) : Range := (toInt a, toInt b)

/-- The comparator `RangeCompare::operator()`: `lhv.second < rhv.first`. -/
def RangeCompare (lhv rhv : Range) : Bool := decide (lhv.2 < rhv.1)

/-- Equivalence of two keys under the comparator: neither is less than the other. -/
def equivalent (a b : Range) : Bool := !RangeCompare a b && !RangeCompare b a

/-- In-order sequence of a `std::set<Range, RangeCompare>`. -/
abbrev RangeSet := List Range

namespace RangeSet

/-- `std::set::find`: the lower bound of `k`, unless it is the end or `k` is less than it. -/
def find (l : RangeSet) (k : Range) : Option Range :=
  match l.dropWhile (fun e => RangeCompare e k) with
  | [] => none
  | j :: _ => if RangeCompare k j then none else some j

/-- `std::set::insert`: the position is the upper bound of `k`; `k` is linked in
there when the position is the beginning or the element before it is less than
`k`, and otherwise the container is left as it is. -/
def insert (l : RangeSet) (k : Range) : RangeSet :=
  let pre := l.takeWhile (fun e => !RangeCompare k e)
  let post := l.dropWhile (fun e => !RangeCompare k e)
  match pre.getLast? with
  | none => k :: post
  | some j => if RangeCompare j k then pre ++ k :: post else l

/-- `std::set::erase(key)`: erases the elements from the lower bound of `k` up to
the first element after it that `k` is less than. -/
def erase (l : RangeSet) (k : Range) : RangeSet :=
  l.takeWhile (fun e => RangeCompare e k) ++
    (l.dropWhile (fun e => RangeCompare e k)).dropWhile (fun e => !RangeCompare k e)

/-- The order invariant of the container over well-formed ranges: the in-order
sequence is strictly increasing under the comparator and every element has
`first <= second`. -/
def Valid (l : RangeSet) : Prop :=
  l.Pairwise (fun a b => a.2 < b.1) ∧ ∀ r ∈ l, r.1 ≤ r.2

end RangeSet

/-- The function `in_range`: `ranges.find(Range(value, value)) != ranges.end()`. -/
def in_range (ranges : RangeSet) (value : Nat) : Bool :=
  (RangeSet.find ranges (mkRange value value)).isSome

/-- An analysis call inserted at an instruction: which routine, and the memory
operand whose effective address it receives. -/
inductive Call where
  | read (memOp : Nat)
  | write (memOp : Nat)
  deriving DecidableEq, Repr

/-- A memory operand of an instruction, as Pin reports it. -/
structure MemOp where
  isRead : Bool
  isWritten : Bool
  deriving DecidableEq, Repr

/-- An instruction as seen by the instrumentation routine: its address and
its memory operands. -/
structure INS where
  addr : Nat
  memOps : List MemOp
  deriving DecidableEq, Repr

/-- The globals of the tool (`trace`, `ranges`, `enableTrace`) and the analysis
calls Pin holds for each instruction address. -/
structure State where
  ranges : RangeSet
  enableTrace : Bool
  trace : List String
  wired : List (Nat × Call)

/-- Rendering of the conversion `%p`: `0x` and the lowercase hexadecimal digits,
`(nil)` for the null pointer. -/
def fmtPtr (p : Nat) : String :=
  if p = 0 then "(nil)" else "0x" ++ String.mk (Nat.toDigits 16 p)

/-- Rendering of `%llu`. -/
def fmtULL (v : Nat) : String := Nat.repr v

/-- Rendering of `%d` on a `bool`. -/
def fmtBool (b : Bool) : String := if b then "1" else "0"

/-- One `fprintf(trace, ...)` of a whole line. -/
def fprintf (st : State) (line : String) : State :=
  { st with trace := st.trace ++ [line] }

/-- The function `RecordMemRead`. -/
def RecordMemRead (ip addr : Nat) (st : State) : State :=
  let is_recording := in_range st.ranges addr
  if is_recording then fprintf st (fmtPtr ip ++ ": R " ++ fmtPtr addr) else st

/-- The function `RecordMemWrite`. -/
def RecordMemWrite (ip addr : Nat) (st : State) : State :=
  let is_recording := in_range st.ranges addr
  if is_recording then fprintf st (fmtPtr ip ++ ": W " ++ fmtPtr addr) else st

/-- The calls inserted for operand number `memOp`: one read call when the
operand is read, then one write call when it is written. -/
def operandCalls (memOp : Nat) (op : MemOp) : List Call :=
  (if op.isRead then [Call.read memOp] else []) ++
    (if op.isWritten then [Call.write memOp] else [])

/-- The loop of `Instruction` over the operands, from operand number `memOp` on. -/
def instrumentFrom (memOp : Nat) : List MemOp → List Call
  | [] => []
  | op :: rest => operandCalls memOp op ++ instrumentFrom (memOp + 1) rest

/-- The function `Instruction`: under `enableTrace`, insert the calls of every
memory operand at the instruction. -/
def Instruction (ins : INS) (st : State) : State :=
  if st.enableTrace then
    { st with wired := st.wired ++ (instrumentFrom 0 ins.memOps).map (fun c => (ins.addr, c)) }
  else st

/-- One inserted call being run, with the instruction pointer and the effective
address of its operand. -/
def runCall (ip : Nat) (ea : Nat → Nat) (st : State) (c : Nat × Call) : State :=
  match c.2 with
  | Call.read m => RecordMemRead ip (ea m) st
  | Call.write m => RecordMemWrite ip (ea m) st

/-- Pin executing the instruction at `ip` with the predicate true: the calls
inserted at that instruction run in insertion order; `ea m` is the effective
address of operand `m` in this execution. -/
def execute (ip : Nat) (ea : Nat → Nat) (st : State) : State :=
  (st.wired.filter (fun c => c.1 = ip)).foldl (runCall ip ea) st

/-- The function `Fini`. -/
def Fini (st : State) : State := fprintf st "#eof"

/-- The function `add_mem`. -/
def add_mem (start_address end_address : Nat) (st : State) : State :=
  fprintf { st with ranges := RangeSet.insert st.ranges (mkRange start_address end_address) }
    ("add_mem" ++ " " ++ fmtULL start_address ++ " " ++ fmtULL end_address)

/-- The function `remove_mem`. -/
def remove_mem (start_address end_address : Nat) (st : State) : State :=
  fprintf { st with ranges := RangeSet.erase st.ranges (mkRange start_address end_address) }
    ("remove_mem" ++ " " ++ fmtULL start_address ++ " " ++ fmtULL end_address)

/-- The function `set_enable_trace`. -/
def set_enable_trace (enable_trace : Bool) (st : State) : State :=
  fprintf { st with enableTrace := enable_trace }
    ("set_enable_trace" ++ " " ++ fmtBool enable_trace)

/-- The state `main` sets up before the program starts: an empty log, an empty
registry, the gate off, nothing instrumented. -/
def main : State := { ranges := [], enableTrace := false, trace := [], wired := [] }

/-- A control call of the traced program. -/
inductive Op where
  | add (start_address end_address : Nat)
  | remove (start_address end_address : Nat)
  deriving DecidableEq, Repr

/-- One control call applied to the state. -/
def Op.apply (st : State) : Op → State
  | Op.add s e => add_mem s e st
  | Op.remove s e => remove_mem s e st

/-- A sequence of control calls, applied in order. -/
def runOps (ops : List Op) (st : State) : State := ops.foldl Op.apply st

/-- A control call whose stored range is well formed: for a watch call the
converted bounds satisfy `first <= second`; an unwatch call always. -/
def Op.wellFormed : Op → Bool
  | Op.add s e => decide (toInt s ≤ toInt e)
  | Op.remove _ _ => true

/-- The data records one execution is expected to log for operand number
`memOp`: a read line when the operand is read and its address is in the
registry, then a write line when it is written and its address is in the
registry. -/
def operandRecords (ranges : RangeSet) (ip : Nat) (ea : Nat → Nat) (memOp : Nat)
    (op : MemOp) : List String :=
  (if op.isRead && in_range ranges (ea memOp)
    then [fmtPtr ip ++ ": R " ++ fmtPtr (ea memOp)] else []) ++
  (if op.isWritten && in_range ranges (ea memOp)
    then [fmtPtr ip ++ ": W " ++ fmtPtr (ea memOp)] else [])

/-- The data records expected from one execution of an instruction, operand by
operand, from operand number `memOp` on. -/
def dataRecordsFrom (ranges : RangeSet) (ip : Nat) (ea : Nat → Nat) (memOp : Nat) :
    List MemOp → List String
  | [] => []
  | op :: rest =>
    operandRecords ranges ip ea memOp op ++ dataRecordsFrom ranges ip ea (memOp + 1) rest

end SelectivePintrace

namespace SelectivePintrace

/-! ## The container operations -/

theorem RangeCompare_iff (a b : Range) : RangeCompare a b = true ↔ a.2 < b.1 := by
  simp [RangeCompare]

theorem RangeCompare_false_iff (a b : Range) : RangeCompare a b = false ↔ b.1 ≤ a.2 := by
  simp [RangeCompare]

theorem equivalent_iff (a b : Range) :
    equivalent a b = true ↔ b.1 ≤ a.2 ∧ a.1 ≤ b.2 := by
  simp [equivalent, RangeCompare]

theorem dropWhile_head_false {α : Type} (p : α → Bool) :
    ∀ (l : List α) (h : α) (t : List α), l.dropWhile p = h :: t → p h = false
  | [], _, _, e => by simp at e
  | a :: l, h, t, e => by
    by_cases ha : p a = true
    · rw [List.dropWhile_cons_of_pos ha] at e
      exact dropWhile_head_false p l h t e
    · rw [List.dropWhile_cons_of_neg ha] at e
      cases e
      simpa using ha

theorem dropWhile_eq_filter_of_mono {α : Type} (p : α → Bool) (R : α → α → Prop)
    (hmono : ∀ a b, R a b → p a = true → p b = true) :
    ∀ l : List α, l.Pairwise R → l.dropWhile (fun e => !p e) = l.filter p
  | [], _ => rfl
  | a :: t, h => by
    rw [List.pairwise_cons] at h
    by_cases ha : p a = true
    · have hall : ∀ b ∈ t, p b = true := fun b hb => hmono a b (h.1 b hb) ha
      have hf : t.filter p = t := List.filter_eq_self.2 hall
      simp [ha, hf]
    · have ih := dropWhile_eq_filter_of_mono p R hmono t h.2
      simp [ha, ih]

namespace RangeSet

theorem valid_nil : Valid [] := by
  simp [Valid]

theorem valid_tail {a : Range} {t : RangeSet} (h : Valid (a :: t)) : Valid t := by
  refine ⟨(List.pairwise_cons.1 h.1).2, fun r hr => h.2 r (List.mem_cons_of_mem _ hr)⟩

theorem valid_head_lt {a : Range} {t : RangeSet} (h : Valid (a :: t)) :
    ∀ b ∈ t, a.2 < b.1 :=
  (List.pairwise_cons.1 h.1).1

theorem valid_sublist {l l2 : RangeSet} (hs : l2.Sublist l) (h : Valid l) : Valid l2 :=
  ⟨h.1.sublist hs, fun r hr => h.2 r (hs.subset hr)⟩

theorem find_some {l : RangeSet} {k j : Range} (h : find l k = some j) :
    j ∈ l ∧ RangeCompare j k = false ∧ RangeCompare k j = false := by
  unfold find at h
  split at h
  · cases h
  · rename_i j0 t heq
    split at h
    · cases h
    · rename_i hk
      cases h
      have hmem : j ∈ l.dropWhile (fun e => RangeCompare e k) := by
        rw [heq]; exact List.mem_cons_self _ _
      refine ⟨(List.dropWhile_sublist _).subset hmem, ?_, ?_⟩
      · exact dropWhile_head_false _ l j t heq
      · simpa using hk

theorem mem_erase {l : RangeSet} {k r : Range} (h : r ∈ erase l k) : r ∈ l := by
  unfold erase at h
  rcases List.mem_append.1 h with h1 | h2
  · exact (List.takeWhile_sublist _).subset h1
  · exact (List.dropWhile_sublist _).subset ((List.dropWhile_sublist _).subset h2)

theorem mem_insert {l : RangeSet} {k r : Range} (h : r ∈ insert l k) : r = k ∨ r ∈ l := by
  unfold insert at h
  simp only at h
  split at h
  · rcases List.mem_cons.1 h with h1 | h2
    · exact Or.inl h1
    · exact Or.inr ((List.dropWhile_sublist _).subset h2)
  · split at h
    · rcases List.mem_append.1 h with h1 | h2
      · exact Or.inr ((List.takeWhile_sublist _).subset h1)
      · rcases List.mem_cons.1 h2 with h3 | h4
        · exact Or.inl h3
        · exact Or.inr ((List.dropWhile_sublist _).subset h4)
    · exact Or.inr h

theorem erase_of_no_equivalent :
    ∀ (l : RangeSet) (k : Range), (∀ r ∈ l, equivalent r k = false) → erase l k = l
  | [], _, _ => rfl
  | a :: t, k, h => by
    by_cases ha : RangeCompare a k = true
    · have ih := erase_of_no_equivalent t k (fun r hr => h r (List.mem_cons_of_mem _ hr))
      unfold erase at ih ⊢
      simp only [List.takeWhile_cons, List.dropWhile_cons, ha, if_true, List.cons_append]
      rw [ih]
    · have ha2 : RangeCompare a k = false := Bool.eq_false_iff.2 ha
      have hka : RangeCompare k a = true := by
        have h3 := h a (List.mem_cons_self _ _)
        unfold equivalent at h3
        rw [ha2] at h3
        simpa using h3
      unfold erase
      simp [List.takeWhile_cons, List.dropWhile_cons, ha2, hka]

theorem erase_eq_filter :
    ∀ (l : RangeSet) (k : Range), Valid l → erase l k = l.filter (fun r => !equivalent r k)
  | [], _, _ => rfl
  | a :: t, k, hv => by
    have hv2 : Valid t := valid_tail hv
    by_cases ha : RangeCompare a k = true
    · have ih := erase_eq_filter t k hv2
      have hne : equivalent a k = false := by simp [equivalent, ha]
      unfold erase at ih ⊢
      simp only [List.takeWhile_cons, List.dropWhile_cons, ha, if_true, List.cons_append]
      rw [ih]
      simp [hne]
    · have hak : k.1 ≤ a.2 := by simpa [RangeCompare] using ha
      have hall : ∀ b ∈ a :: t, RangeCompare b k = false := by
        intro b hb
        rcases List.mem_cons.1 hb with rfl | hb
        · simpa using ha
        · have h1 := valid_head_lt hv b hb
          have h2 := hv.2 b (List.mem_cons_of_mem _ hb)
          rw [RangeCompare_false_iff]
          omega
      have hpw : (a :: t).Pairwise (fun x y : Range => x.1 ≤ x.2 ∧ x.2 < y.1) := by
        have hw : (a :: t).Pairwise (fun x _ : Range => x.1 ≤ x.2) :=
          List.pairwise_of_forall_mem_list (fun x hx _ _ => hv.2 x hx)
        exact List.Pairwise.imp₂ (fun _ _ h1 h2 => ⟨h1, h2⟩) hw hv.1
      have hmono : ∀ x y : Range, (x.1 ≤ x.2 ∧ x.2 < y.1) →
          RangeCompare k x = true → RangeCompare k y = true := by
        intro x y hxy hkx
        rw [RangeCompare_iff] at hkx ⊢
        omega
      have hd := dropWhile_eq_filter_of_mono (fun e => RangeCompare k e) _ hmono (a :: t) hpw
      have ha2 : RangeCompare a k = false := Bool.eq_false_iff.2 ha
      unfold erase
      simp only [List.takeWhile_cons, List.dropWhile_cons, ha2, List.nil_append]
      refine Eq.trans hd ?_
      apply List.filter_congr
      intro x hx
      simp [equivalent, hall x hx]

theorem valid_erase {l : RangeSet} (k : Range) (h : Valid l) : Valid (erase l k) := by
  rw [erase_eq_filter l k h]
  exact valid_sublist (List.filter_sublist _) h

theorem valid_insert {l : RangeSet} {k : Range} (hv : Valid l) (hk : k.1 ≤ k.2) :
    Valid (insert l k) := by
  have hsplit := List.takeWhile_append_dropWhile (fun e => !RangeCompare k e) l
  have hpost : ∀ b ∈ l.dropWhile (fun e => !RangeCompare k e), k.2 < b.1 := by
    intro b hb
    cases hdw : l.dropWhile (fun e => !RangeCompare k e) with
    | nil => rw [hdw] at hb; cases hb
    | cons h t =>
      have hh := dropWhile_head_false _ l h t hdw
      have hh2 : k.2 < h.1 := by simpa [RangeCompare] using hh
      rw [hdw] at hb
      rcases List.mem_cons.1 hb with rfl | hb
      · exact hh2
      · have hvd : Valid (h :: t) := hdw ▸ valid_sublist (List.dropWhile_sublist _) hv
        have h1 := valid_head_lt hvd b hb
        have h2 := hvd.2 h (List.mem_cons_self _ _)
        omega
  have hvpost : Valid (l.dropWhile (fun e => !RangeCompare k e)) :=
    valid_sublist (List.dropWhile_sublist _) hv
  have hkpost : Valid (k :: l.dropWhile (fun e => !RangeCompare k e)) := by
    refine ⟨List.pairwise_cons.2 ⟨hpost, hvpost.1⟩, ?_⟩
    intro r hr
    rcases List.mem_cons.1 hr with rfl | hr
    · exact hk
    · exact hvpost.2 r hr
  unfold insert
  simp only
  split
  · exact hkpost
  · rename_i j hj
    split
    · rename_i hjk
      rw [RangeCompare_iff] at hjk
      obtain ⟨ys, hys⟩ := List.getLast?_eq_some_iff.1 hj
      have hvpre : Valid (l.takeWhile (fun e => !RangeCompare k e)) :=
        valid_sublist (List.takeWhile_sublist _) hv
      have hprek : ∀ a ∈ l.takeWhile (fun e => !RangeCompare k e), a.2 < k.1 := by
        intro a ha
        rw [hys] at ha hvpre
        rcases List.mem_append.1 ha with h1 | h2
        · have h3 := (List.pairwise_append.1 hvpre.1).2.2 a h1 j (List.mem_singleton_self _)
          have h4 := hvpre.2 j (List.mem_append_right _ (List.mem_singleton_self _))
          omega
        · rw [List.mem_singleton] at h2
          subst h2
          exact hjk
      refine ⟨List.pairwise_append.2 ⟨hvpre.1, hkpost.1, ?_⟩, ?_⟩
      · intro a ha b hb
        rcases List.mem_cons.1 hb with rfl | hb
        · exact hprek a ha
        · have := hprek a ha
          have := hpost b hb
          omega
      · intro r hr
        rcases List.mem_append.1 hr with h1 | h2
        · exact hvpre.2 r h1
        · exact hkpost.2 r h2
    · exact hv

theorem find_isSome_of_mem :
    ∀ (l : RangeSet) (k r : Range), Valid l → r ∈ l →
      equivalent r k = true → (find l k).isSome = true
  | [], _, _, _, hr, _ => by cases hr
  | a :: t, k, r, hv, hr, he => by
    rw [equivalent_iff] at he
    have hlt := valid_head_lt hv
    have hwa := hv.2 a (List.mem_cons_self _ _)
    by_cases ha : RangeCompare a k = true
    · have hra : r ∈ t := by
        rcases List.mem_cons.1 hr with rfl | h
        · rw [RangeCompare_iff] at ha; omega
        · exact h
      have ih := find_isSome_of_mem t k r (valid_tail hv) hra ((equivalent_iff r k).2 he)
      unfold find at ih ⊢
      simp only [List.dropWhile_cons, ha, if_true]
      exact ih
    · have hka : RangeCompare k a = false := by
        rw [RangeCompare_false_iff]
        rcases List.mem_cons.1 hr with rfl | h
        · exact he.2
        · have := hlt r h
          omega
      have ha2 : RangeCompare a k = false := Bool.eq_false_iff.2 ha
      unfold find
      simp [List.dropWhile_cons, ha2, hka]

end RangeSet

theorem in_range_sound {l : RangeSet} {x : Nat} (h : in_range l x = true) :
    ∃ r ∈ l, r.1 ≤ toInt x ∧ toInt x ≤ r.2 := by
  unfold in_range at h
  cases hf : RangeSet.find l (mkRange x x) with
  | none => rw [hf] at h; cases h
  | some j =>
    obtain ⟨hm, h1, h2⟩ := RangeSet.find_some hf
    rw [RangeCompare_false_iff] at h1 h2
    exact ⟨j, hm, h2, h1⟩

theorem in_range_iff {l : RangeSet} (hv : RangeSet.Valid l) (x : Nat) :
    in_range l x = true ↔ ∃ r ∈ l, r.1 ≤ toInt x ∧ toInt x ≤ r.2 := by
  constructor
  · exact in_range_sound
  · rintro ⟨r, hr, h1, h2⟩
    exact RangeSet.find_isSome_of_mem l (mkRange x x) r hv hr
      ((equivalent_iff _ _).2 ⟨h2, h1⟩)

/-! ## State lemmas -/

@[simp] theorem add_mem_ranges (s e : Nat) (st : State) :
    (add_mem s e st).ranges = RangeSet.insert st.ranges (mkRange s e) := rfl

@[simp] theorem remove_mem_ranges (s e : Nat) (st : State) :
    (remove_mem s e st).ranges = RangeSet.erase st.ranges (mkRange s e) := rfl

theorem runOps_cons (op : Op) (ops : List Op) (st : State) :
    runOps (op :: ops) st = runOps ops (op.apply st) := rfl

theorem runOps_valid :
    ∀ (ops : List Op) (st : State), RangeSet.Valid st.ranges →
      (∀ op ∈ ops, op.wellFormed = true) → RangeSet.Valid (runOps ops st).ranges
  | [], _, hv, _ => hv
  | op :: ops, st, hv, hw => by
    rw [runOps_cons]
    apply runOps_valid ops _ _ (fun o ho => hw o (List.mem_cons_of_mem _ ho))
    have hop := hw op (List.mem_cons_self _ _)
    cases op with
    | add s e =>
      have hse : toInt s ≤ toInt e := by simpa [Op.wellFormed] using hop
      exact RangeSet.valid_insert hv hse
    | remove s e => exact RangeSet.valid_erase _ hv

theorem runOps_mem :
    ∀ (ops : List Op) (st : State) (r : Range), r ∈ (runOps ops st).ranges →
      r ∈ st.ranges ∨ ∃ s e, Op.add s e ∈ ops ∧ r = mkRange s e
  | [], _, _, h => Or.inl h
  | op :: ops, st, r, h => by
    rw [runOps_cons] at h
    rcases runOps_mem ops _ r h with h1 | ⟨s, e, hm, hr⟩
    · cases op with
      | add s e =>
        rcases RangeSet.mem_insert h1 with h2 | h2
        · exact Or.inr ⟨s, e, List.mem_cons_self _ _, h2⟩
        · exact Or.inl h2
      | remove s e => exact Or.inl (RangeSet.mem_erase h1)
    · exact Or.inr ⟨s, e, List.mem_cons_of_mem _ hm, hr⟩

/-- Whatever the calls, an address that `in_range` accepts lies, after
conversion to `int`, inside the converted bounds of some earlier watch call. -/
theorem in_range_runOps_sound (ops : List Op) (x : Nat)
    (h : in_range (runOps ops main).ranges x = true) :
    ∃ s e, Op.add s e ∈ ops ∧ toInt s ≤ toInt x ∧ toInt x ≤ toInt e := by
  obtain ⟨r, hr, h1, h2⟩ := in_range_sound h
  rcases runOps_mem ops main r hr with h3 | ⟨s, e, hm, rfl⟩
  · cases h3
  · exact ⟨s, e, hm, h1, h2⟩

theorem toInt_of_lt {v : Nat} (h : v < 2 ^ 31) : toInt v = (v : Int) := by
  unfold toInt
  have h1 : v % 2 ^ 32 = v := Nat.mod_eq_of_lt (by omega)
  rw [h1, if_pos h]

theorem insert_nil (k : Range) : RangeSet.insert [] k = [k] := rfl

theorem in_range_singleton (a : Range) (x : Nat) :
    in_range [a] x = (decide (a.1 ≤ toInt x) && decide (toInt x ≤ a.2)) := by
  unfold in_range RangeSet.find mkRange
  by_cases h1 : a.2 < toInt x
  · have h2 : ¬ toInt x ≤ a.2 := by omega
    simp [RangeCompare, h1, h2]
  · by_cases h3 : toInt x < a.1
    · have h4 : ¬ a.1 ≤ toInt x := by omega
      simp [RangeCompare, h1, h3, h4]
    · have h4 : a.1 ≤ toInt x := by omega
      have h5 : toInt x ≤ a.2 := by omega
      simp [RangeCompare, h1, h3, h4, h5]

/-- Below `2^31` the conversion to `int` loses nothing, and watch followed by
unwatch with the same bounds behaves as an interval: every address of
`[b, e]` is in range in between, and the registry is empty afterwards. -/
theorem add_remove_roundtrip_of_lt (st : State) (hst : st.ranges = []) (b e x : Nat)
    (hbx : b ≤ x) (hxe : x ≤ e) (he : e < 2 ^ 31) :
    in_range (add_mem b e st).ranges x = true ∧
      (remove_mem b e (add_mem b e st)).ranges = [] := by
  have hb : toInt b = (b : Int) := toInt_of_lt (by omega)
  have hx : toInt x = (x : Int) := toInt_of_lt (by omega)
  have he2 : toInt e = (e : Int) := toInt_of_lt he
  have hle : (b : Int) ≤ (e : Int) := by omega
  constructor
  · rw [add_mem_ranges, hst, insert_nil, in_range_singleton]
    simp only [mkRange, hb, hx, he2]
    simp; omega
  · rw [remove_mem_ranges, add_mem_ranges, hst, insert_nil]
    have hnot : ¬ ((e : Int) < (b : Int)) := by omega
    simp [RangeSet.erase, RangeCompare, mkRange, hb, he2, hnot]

/-! ## The range registry -/

/-- C1, evaluated at the failing input: after `add_mem(0, 10)` on the start
state the 64-bit address `4294967301 = 2^32 + 5` lies strictly above the only
watched range `[0, 10]`, yet `in_range` answers true, because `Range(value,
value)` keeps only the low 32 bits of the address. -/
theorem in_range_accepts_address_outside_watched_range :
    (10 : Nat) < 4294967301 ∧ 4294967301 < 2 ^ 64 ∧
      (add_mem 0 10 main).ranges = [(0, 10)] ∧
      mkRange 4294967301 4294967301 = (5, 5) ∧
      in_range (add_mem 0 10 main).ranges 4294967301 = true := by
  decide

/-- C2, evaluated at the failing input `b = 2147483647`, `e = 2147483648`
(so `b <= e`): the stored pair is `(2147483647, -2147483648)`; `in_range` is
false at `b` and at `e`, a write to `b` logs nothing, and `remove_mem(b, e)`
with the same bounds leaves the pair in the registry. -/
theorem add_mem_remove_mem_across_int_limit :
    (2147483647 : Nat) ≤ 2147483648 ∧ 2147483648 < 2 ^ 64 ∧
      (add_mem 2147483647 2147483648 main).ranges = [(2147483647, -2147483648)] ∧
      in_range (add_mem 2147483647 2147483648 main).ranges 2147483647 = false ∧
      in_range (add_mem 2147483647 2147483648 main).ranges 2147483648 = false ∧
      (RecordMemWrite 4198400 2147483647 (add_mem 2147483647 2147483648 main)).trace =
        (add_mem 2147483647 2147483648 main).trace ∧
      (remove_mem 2147483647 2147483648 (add_mem 2147483647 2147483648 main)).ranges =
        [(2147483647, -2147483648)] := by
  decide

/-- C3: `RecordMemRead` (resp. `RecordMemWrite`) appends exactly the line
`<ip>: R <addr>` (resp. `<ip>: W <addr>`) when `in_range(ranges, addr)` is true
and leaves the log as it is otherwise; the registry, the gate and the inserted
calls are unchanged; and the log written does not depend on `enableTrace`. -/
theorem RecordMem_appends_iff_in_range (st : State) (g : Bool) (ip addr : Nat) :
    (RecordMemRead ip addr st).trace =
        (if in_range st.ranges addr then st.trace ++ [fmtPtr ip ++ ": R " ++ fmtPtr addr]
          else st.trace) ∧
      (RecordMemWrite ip addr st).trace =
        (if in_range st.ranges addr then st.trace ++ [fmtPtr ip ++ ": W " ++ fmtPtr addr]
          else st.trace) ∧
      (RecordMemRead ip addr st).ranges = st.ranges ∧
      (RecordMemWrite ip addr st).ranges = st.ranges ∧
      (RecordMemRead ip addr st).enableTrace = st.enableTrace ∧
      (RecordMemWrite ip addr st).enableTrace = st.enableTrace ∧
      (RecordMemRead ip addr st).wired = st.wired ∧
      (RecordMemWrite ip addr st).wired = st.wired ∧
      (RecordMemRead ip addr { st with enableTrace := g }).trace =
        (RecordMemRead ip addr st).trace ∧
      (RecordMemWrite ip addr { st with enableTrace := g }).trace =
        (RecordMemWrite ip addr st).trace := by
  unfold RecordMemRead RecordMemWrite fprintf
  cases h : in_range st.ranges addr <;> simp [h]

/-- C4: when the stored pairs of two watch calls are equivalent under
`RangeCompare`, watching the first and then the second on an empty registry
leaves exactly the first pair stored, and `in_range` answers exactly for the
addresses of the first pair. -/
theorem second_equivalent_watch_is_dropped (st : State) (hst : st.ranges = [])
    (sa ea sb eb : Nat)
    (heq : equivalent (mkRange sa ea) (mkRange sb eb) = true) :
    (add_mem sb eb (add_mem sa ea st)).ranges = [mkRange sa ea] ∧
      ∀ x, in_range (add_mem sb eb (add_mem sa ea st)).ranges x =
        (decide (toInt sa ≤ toInt x) && decide (toInt x ≤ toInt ea)) := by
  have hranges : (add_mem sb eb (add_mem sa ea st)).ranges = [mkRange sa ea] := by
    rw [add_mem_ranges, add_mem_ranges, hst, insert_nil]
    unfold equivalent at heq
    have h1 : RangeCompare (mkRange sa ea) (mkRange sb eb) = false := by
      cases h : RangeCompare (mkRange sa ea) (mkRange sb eb) <;> simp_all
    have h2 : RangeCompare (mkRange sb eb) (mkRange sa ea) = false := by
      cases h : RangeCompare (mkRange sb eb) (mkRange sa ea) <;> simp_all
    simp [RangeSet.insert, h1, h2]
  refine ⟨hranges, fun x => ?_⟩
  rw [hranges, in_range_singleton]
  rfl

/-- C4 at `watch(10,20)` then `watch(15,25)`: the registry is `[10,20]` and 17 is in range. -/
theorem second_equivalent_watch_is_dropped_witness :
    equivalent (mkRange 10 20) (mkRange 15 25) = true ∧
      (add_mem 15 25 (add_mem 10 20 main)).ranges = [(10, 20)] ∧
      in_range (add_mem 15 25 (add_mem 10 20 main)).ranges 17 = true :=
  ⟨by decide,
    (second_equivalent_watch_is_dropped main rfl 10 20 15 25 (by decide)).1,
    ((second_equivalent_watch_is_dropped main rfl 10 20 15 25 (by decide)).2 17).trans
      (by decide)⟩

/-- C5 as stated fails: after `add_mem(20,10)` and `add_mem(12,30)` the set
holds `(20,10)` at the root and `(12,30)` as its right child.  The stored range
`[12,30]` overlaps `[5,15]`, yet `remove_mem(5,15)` erases nothing: the search
starts at `(20,10)`, which is not less than the key while the key is less than
it (`15 < 20`), so it ends at that element and never reaches `(12,30)`.  The
address 13 is in range before the call and stays in range after it. -/
theorem remove_mem_misses_range_behind_inverted_pair :
    ¬ (∀ (ops : List Op) (r : Range) (s e : Nat), r ∈ (runOps ops main).ranges →
        equivalent (mkRange s e) r = true →
        r ∉ (remove_mem s e (runOps ops main)).ranges) ∧
      (runOps [Op.add 20 10, Op.add 12 30] main).ranges = [(20, 10), (12, 30)] ∧
      equivalent (mkRange 5 15) (12, 30) = true ∧
      (remove_mem 5 15 (runOps [Op.add 20 10, Op.add 12 30] main)).ranges =
        [(20, 10), (12, 30)] ∧
      in_range (runOps [Op.add 20 10, Op.add 12 30] main).ranges 13 = true ∧
      in_range (remove_mem 5 15 (runOps [Op.add 20 10, Op.add 12 30] main)).ranges 13 =
        true := by
  refine ⟨fun h => ?_, by decide, by decide, by decide, by decide, by decide⟩
  have h1 := h [Op.add 20 10, Op.add 12 30] (12, 30) 5 15 (by decide) (by decide)
  revert h1
  decide

/-- C5, amended: in a registry whose stored ranges are all well formed
(`first <= second`) and in the order of the set, hence pairwise non-equivalent,
as after any calls whose watch pairs are well formed, for every stored range `r`
and every `remove_mem(s, e)` whose pair is equivalent to `r` (it overlaps or
touches it, a sub-range included), `r` is no longer stored afterwards and every
address of `r` is out of range afterwards. -/
theorem remove_mem_is_by_equivalence (st : State) (hv : RangeSet.Valid st.ranges)
    (r : Range) (hr : r ∈ st.ranges) (s e : Nat)
    (heq : equivalent (mkRange s e) r = true) :
    r ∉ (remove_mem s e st).ranges ∧
      ∀ x, r.1 ≤ toInt x → toInt x ≤ r.2 → in_range (remove_mem s e st).ranges x = false := by
  have hfil := RangeSet.erase_eq_filter st.ranges (mkRange s e) hv
  have heq2 : equivalent r (mkRange s e) = true := by
    rw [equivalent_iff] at heq ⊢
    exact ⟨heq.2, heq.1⟩
  have hnot : r ∉ (remove_mem s e st).ranges := by
    rw [remove_mem_ranges, hfil, List.mem_filter]
    simp [heq2]
  refine ⟨hnot, fun x h1 h2 => ?_⟩
  cases hin : in_range (remove_mem s e st).ranges x with
  | false => rfl
  | true =>
    exfalso
    obtain ⟨q, hq, h3, h4⟩ := in_range_sound hin
    have hqmem : q ∈ st.ranges := RangeSet.mem_erase hq
    have hqr : q ≠ r := fun h => hnot (h ▸ hq)
    have hsym : ∀ a ∈ st.ranges, ∀ b ∈ st.ranges, a ≠ b → a.2 < b.1 ∨ b.2 < a.1 := by
      intro a ha b hb
      refine List.Pairwise.forall_of_forall (R := fun a b : Range => a ≠ b → a.2 < b.1 ∨ b.2 < a.1)
        ?_ ?_ (hv.1.imp (fun h _ => Or.inl h)) ha hb
      · intro a b h hne
        rcases h (Ne.symm hne) with h | h
        · exact Or.inr h
        · exact Or.inl h
      · intro a _ hne
        exact absurd rfl hne
    rcases hsym q hqmem r hr hqr with h | h <;> omega

/-- C5 at the stored range `[10,20]`: `unwatch(15,25)` empties the registry, and
so does the sub-range `unwatch(12,15)`. -/
theorem remove_mem_is_by_equivalence_witness :
    RangeSet.Valid (add_mem 10 20 main).ranges ∧
      (10, 20) ∈ (add_mem 10 20 main).ranges ∧
      equivalent (mkRange 15 25) (10, 20) = true ∧
      (10, 20) ∉ (remove_mem 15 25 (add_mem 10 20 main)).ranges ∧
      (remove_mem 15 25 (add_mem 10 20 main)).ranges = [] ∧
      (remove_mem 12 15 (add_mem 10 20 main)).ranges = [] ∧
      in_range (remove_mem 15 25 (add_mem 10 20 main)).ranges 17 = false :=
  ⟨by simp [RangeSet.Valid, insert_nil, main, mkRange, toInt], by decide, by decide,
    (remove_mem_is_by_equivalence (add_mem 10 20 main)
      (by simp [RangeSet.Valid, insert_nil, main, mkRange, toInt])
      (10, 20) (by decide) 15 25 (by decide)).1,
    by decide, by decide,
    (remove_mem_is_by_equivalence (add_mem 10 20 main)
      (by simp [RangeSet.Valid, insert_nil, main, mkRange, toInt])
      (10, 20) (by decide) 15 25 (by decide)).2 17 (by decide) (by decide)⟩

/-- C6: when no stored range is equivalent to the pair of `remove_mem(s, e)`,
the call leaves the stored ranges exactly as they were, and a second call
changes nothing either. -/
theorem remove_mem_without_match_is_noop (st : State) (s e : Nat)
    (h : ∀ r ∈ st.ranges, equivalent r (mkRange s e) = false) :
    (remove_mem s e st).ranges = st.ranges ∧
      (remove_mem s e (remove_mem s e st)).ranges = (remove_mem s e st).ranges := by
  have h1 : (remove_mem s e st).ranges = st.ranges := by
    rw [remove_mem_ranges]
    exact RangeSet.erase_of_no_equivalent _ _ h
  refine ⟨h1, ?_⟩
  rw [remove_mem_ranges, h1]
  exact RangeSet.erase_of_no_equivalent _ _ h

/-- C6 on the empty registry, and on the registry `[1,2]` with `unwatch(5,6)`. -/
theorem remove_mem_without_match_is_noop_witness :
    (∀ r ∈ main.ranges, equivalent r (mkRange 3 4) = false) ∧
      (remove_mem 3 4 main).ranges = [] ∧
      (remove_mem 5 6 (add_mem 1 2 main)).ranges = [(1, 2)] ∧
      (remove_mem 5 6 (remove_mem 5 6 (add_mem 1 2 main))).ranges = [(1, 2)] :=
  ⟨by decide,
    (remove_mem_without_match_is_noop main 3 4 (by decide)).1,
    (remove_mem_without_match_is_noop (add_mem 1 2 main) 5 6 (by decide)).1.trans (by decide),
    (remove_mem_without_match_is_noop (add_mem 1 2 main) 5 6 (by decide)).2.trans (by decide)⟩

/-- C7 as stated fails: after `add_mem(20,10)`, `add_mem(0,15)`, `add_mem(12,30)`
the registry holds `(0,15)`, `(20,10)` and `(12,30)`; the distinct stored ranges
`(0,15)` and `(12,30)` are equivalent, and both are equivalent to `[13,13]`.
In the set, `(20,10)` is the root; `(0,15)` goes to its left (`15 < 20`), and
`(12,30)` goes to its right (`30 < 20` fails) and is linked in because the
root is less than it (`10 < 12`), without ever being compared with `(0,15)`. -/
theorem registry_invariant_fails_for_arbitrary_arguments :
    ¬ (∀ ops : List Op, ∀ A ∈ (runOps ops main).ranges, ∀ B ∈ (runOps ops main).ranges,
        A ≠ B → A.2 < B.1 ∨ B.2 < A.1) ∧
      (runOps [Op.add 20 10, Op.add 0 15, Op.add 12 30] main).ranges =
        [(0, 15), (20, 10), (12, 30)] ∧
      ((runOps [Op.add 20 10, Op.add 0 15, Op.add 12 30] main).ranges.filter
        (fun r => equivalent r (mkRange 13 13))).length = 2 := by
  refine ⟨fun h => ?_, by decide, by decide⟩
  have h1 := h [Op.add 20 10, Op.add 0 15, Op.add 12 30] (0, 15) (by decide) (12, 30)
    (by decide) (by decide)
  revert h1
  decide

/-- C7, amended: starting from the empty registry, after every finite sequence
of watch and unwatch calls in which every watch call has converted bounds with
`first <= second`, no two distinct stored ranges are equivalent, no range is
stored twice, and for every address at most one stored range is equivalent to
`[x, x]`. -/
theorem registry_invariant (ops : List Op) (hw : ∀ op ∈ ops, op.wellFormed = true) :
    (∀ A ∈ (runOps ops main).ranges, ∀ B ∈ (runOps ops main).ranges,
        A ≠ B → A.2 < B.1 ∨ B.2 < A.1) ∧
      (runOps ops main).ranges.Nodup ∧
      ∀ x : Nat, ((runOps ops main).ranges.filter
        (fun r => equivalent r (mkRange x x))).length ≤ 1 := by
  have hv : RangeSet.Valid (runOps ops main).ranges :=
    runOps_valid ops main RangeSet.valid_nil hw
  generalize (runOps ops main).ranges = l at hv
  refine ⟨?_, ?_, ?_⟩
  · intro A hA B hB
    refine List.Pairwise.forall_of_forall (R := fun a b : Range => a ≠ b → a.2 < b.1 ∨ b.2 < a.1)
      ?_ ?_ (hv.1.imp (fun h _ => Or.inl h)) hA hB
    · intro a b h hne
      rcases h (Ne.symm hne) with h | h
      · exact Or.inr h
      · exact Or.inl h
    · intro a _ hne
      exact absurd rfl hne
  · have hw2 : l.Pairwise (fun x _ : Range => x.1 ≤ x.2) :=
      List.pairwise_of_forall_mem_list (fun x hx _ _ => hv.2 x hx)
    refine List.Pairwise.imp₂ (fun a b h1 h2 hab => ?_) hw2 hv.1
    subst hab
    omega
  · intro x
    have hsub : (l.filter (fun r => equivalent r (mkRange x x))).Pairwise
        (fun a b : Range => a.2 < b.1) := hv.1.sublist (List.filter_sublist _)
    have hall : ∀ r ∈ l.filter (fun r => equivalent r (mkRange x x)),
        equivalent r (mkRange x x) = true := fun r hr => (List.mem_filter.1 hr).2
    generalize l.filter (fun r => equivalent r (mkRange x x)) = f at hsub hall
    match f, hsub, hall with
    | [], _, _ => simp
    | [_], _, _ => simp
    | a :: b :: t, hsub, hall =>
      exfalso
      have hab : a.2 < b.1 := (List.pairwise_cons.1 hsub).1 b (List.mem_cons_self _ _)
      have ha := (equivalent_iff _ _).1 (hall a (List.mem_cons_self _ _))
      have hb := (equivalent_iff _ _).1
        (hall b (List.mem_cons_of_mem _ (List.mem_cons_self _ _)))
      simp only [mkRange] at ha hb
      omega

/-- C7 amended, at `watch(10,20)`, `watch(15,25)`, `unwatch(0,5)`, `watch(30,40)`. -/
theorem registry_invariant_witness :
    (∀ op ∈ [Op.add 10 20, Op.add 15 25, Op.remove 0 5, Op.add 30 40], op.wellFormed = true) ∧
      (runOps [Op.add 10 20, Op.add 15 25, Op.remove 0 5, Op.add 30 40] main).ranges =
        [(10, 20), (30, 40)] ∧
      (runOps [Op.add 10 20, Op.add 15 25, Op.remove 0 5, Op.add 30 40] main).ranges.Nodup :=
  ⟨by decide, by decide,
    (registry_invariant [Op.add 10 20, Op.add 15 25, Op.remove 0 5, Op.add 30 40]
      (by decide)).2.1⟩

/-- C10: in a registry that is sorted and holds well-formed ranges,
`remove_mem(s, e)` erases every stored range `[a, b]` with `a <= e` and
`s <= b` and keeps every other one, in order; with `[1,2]` and `[5,6]` stored,
`remove_mem(0, 10)` erases both. -/
theorem remove_mem_erases_every_equivalent_range (st : State)
    (hv : RangeSet.Valid st.ranges) (s e : Nat) :
    (remove_mem s e st).ranges =
        st.ranges.filter (fun r => !(decide (r.1 ≤ toInt e) && decide (toInt s ≤ r.2))) ∧
      (∀ r ∈ st.ranges, r.1 ≤ toInt e → toInt s ≤ r.2 → r ∉ (remove_mem s e st).ranges) ∧
      (∀ r ∈ st.ranges, ¬ (r.1 ≤ toInt e ∧ toInt s ≤ r.2) → r ∈ (remove_mem s e st).ranges) ∧
      (remove_mem 0 10 (add_mem 5 6 (add_mem 1 2 main))).ranges = [] ∧
      (add_mem 5 6 (add_mem 1 2 main)).ranges = [(1, 2), (5, 6)] := by
  have hfil : (remove_mem s e st).ranges =
      st.ranges.filter (fun r => !(decide (r.1 ≤ toInt e) && decide (toInt s ≤ r.2))) := by
    rw [remove_mem_ranges, RangeSet.erase_eq_filter _ _ hv]
    apply List.filter_congr
    intro r _
    simp only [equivalent, RangeCompare, mkRange]
    by_cases h1 : r.2 < toInt s <;> by_cases h2 : toInt e < r.1 <;>
      simp [h1, h2, not_le.2, not_lt.1]
  refine ⟨hfil, ?_, ?_, by decide, by decide⟩
  · intro r _ h1 h2
    rw [hfil, List.mem_filter]
    simp [h1, h2]
  · intro r hr h
    rw [hfil, List.mem_filter]
    refine ⟨hr, ?_⟩
    by_cases h1 : r.1 ≤ toInt e <;> by_cases h2 : toInt s ≤ r.2 <;> simp_all

/-- C10 on the registry `[1,2]`, `[5,6]`, `[20,30]` with `unwatch(0,10)`: the
first two ranges are erased by the one call and the third is kept. -/
theorem remove_mem_erases_every_equivalent_range_witness :
    RangeSet.Valid (add_mem 20 30 (add_mem 5 6 (add_mem 1 2 main))).ranges ∧
      (remove_mem 0 10 (add_mem 20 30 (add_mem 5 6 (add_mem 1 2 main)))).ranges = [(20, 30)] :=
  ⟨runOps_valid [Op.add 1 2, Op.add 5 6, Op.add 20 30] main RangeSet.valid_nil (by decide),
    (remove_mem_erases_every_equivalent_range (add_mem 20 30 (add_mem 5 6 (add_mem 1 2 main)))
      (runOps_valid [Op.add 1 2, Op.add 5 6, Op.add 20 30] main RangeSet.valid_nil (by decide))
      0 10).1.trans (by decide)⟩

/-! ## Instrumentation and the log -/

theorem count_operandCalls_read (n k : Nat) (op : MemOp) :
    (operandCalls n op).count (Call.read k) = if k = n ∧ op.isRead = true then 1 else 0 := by
  cases op with
  | mk r w =>
    by_cases hk : k = n
    · subst hk
      cases r <;> cases w <;> simp [operandCalls, List.count_cons]
    · have hne : n ≠ k := fun h => hk h.symm
      cases r <;> cases w <;> simp [operandCalls, List.count_cons, hk, hne]

theorem count_operandCalls_write (n k : Nat) (op : MemOp) :
    (operandCalls n op).count (Call.write k) =
      if k = n ∧ op.isWritten = true then 1 else 0 := by
  cases op with
  | mk r w =>
    by_cases hk : k = n
    · subst hk
      cases r <;> cases w <;> simp [operandCalls, List.count_cons]
    · have hne : n ≠ k := fun h => hk h.symm
      cases r <;> cases w <;> simp [operandCalls, List.count_cons, hk, hne]

theorem count_instrumentFrom_read_below :
    ∀ (ops : List MemOp) (n k : Nat), k < n → (instrumentFrom n ops).count (Call.read k) = 0
  | [], _, _, _ => by simp [instrumentFrom]
  | op :: rest, n, k, h => by
    have hk : k ≠ n := by omega
    simp only [instrumentFrom, List.count_append, count_operandCalls_read]
    rw [count_instrumentFrom_read_below rest (n + 1) k (by omega)]
    simp [hk]

theorem count_instrumentFrom_write_below :
    ∀ (ops : List MemOp) (n k : Nat), k < n → (instrumentFrom n ops).count (Call.write k) = 0
  | [], _, _, _ => by simp [instrumentFrom]
  | op :: rest, n, k, h => by
    have hk : k ≠ n := by omega
    simp only [instrumentFrom, List.count_append, count_operandCalls_write]
    rw [count_instrumentFrom_write_below rest (n + 1) k (by omega)]
    simp [hk]

theorem count_instrumentFrom_read :
    ∀ (ops : List MemOp) (n j : Nat),
      (instrumentFrom n ops).count (Call.read (n + j)) =
        if (ops[j]?.map MemOp.isRead) = some true then 1 else 0
  | [], _, _ => by simp [instrumentFrom]
  | op :: rest, n, 0 => by
    simp only [instrumentFrom, List.count_append, count_operandCalls_read, Nat.add_zero]
    rw [count_instrumentFrom_read_below rest (n + 1) n (by omega)]
    simp
  | op :: rest, n, j + 1 => by
    have hk : n + (j + 1) ≠ n := by omega
    have ih := count_instrumentFrom_read rest (n + 1) j
    have he : n + 1 + j = n + (j + 1) := by omega
    rw [he] at ih
    simp only [instrumentFrom, List.count_append, count_operandCalls_read, ih]
    simp [hk]

theorem count_instrumentFrom_write :
    ∀ (ops : List MemOp) (n j : Nat),
      (instrumentFrom n ops).count (Call.write (n + j)) =
        if (ops[j]?.map MemOp.isWritten) = some true then 1 else 0
  | [], _, _ => by simp [instrumentFrom]
  | op :: rest, n, 0 => by
    simp only [instrumentFrom, List.count_append, count_operandCalls_write, Nat.add_zero]
    rw [count_instrumentFrom_write_below rest (n + 1) n (by omega)]
    simp
  | op :: rest, n, j + 1 => by
    have hk : n + (j + 1) ≠ n := by omega
    have ih := count_instrumentFrom_write rest (n + 1) j
    have he : n + 1 + j = n + (j + 1) := by omega
    rw [he] at ih
    simp only [instrumentFrom, List.count_append, count_operandCalls_write, ih]
    simp [hk]

theorem foldl_runCall_operandCalls (ip : Nat) (ea : Nat → Nat) (n : Nat) (op : MemOp)
    (st : State) :
    ((operandCalls n op).map (fun c => (ip, c))).foldl (runCall ip ea) st =
      { st with trace := st.trace ++ operandRecords st.ranges ip ea n op } := by
  cases op with
  | mk r w =>
    cases r <;> cases w <;> cases h : in_range st.ranges (ea n) <;>
      simp [operandCalls, operandRecords, runCall, RecordMemRead, RecordMemWrite, fprintf, h]

theorem foldl_runCall_instrumentFrom (ip : Nat) (ea : Nat → Nat) :
    ∀ (ops : List MemOp) (n : Nat) (st : State),
      ((instrumentFrom n ops).map (fun c => (ip, c))).foldl (runCall ip ea) st =
        { st with trace := st.trace ++ dataRecordsFrom st.ranges ip ea n ops }
  | [], n, st => by simp [instrumentFrom, dataRecordsFrom]
  | op :: rest, n, st => by
    simp only [instrumentFrom, dataRecordsFrom, List.map_append, List.foldl_append]
    rw [foldl_runCall_operandCalls, foldl_runCall_instrumentFrom ip ea rest (n + 1)]
    simp [List.append_assoc]

theorem execute_fresh_site (ip : Nat) (ea : Nat → Nat) (st : State) (ops : List MemOp)
    (hfresh : ∀ c ∈ st.wired, c.1 ≠ ip) :
    execute ip ea { st with wired := st.wired ++ (instrumentFrom 0 ops).map (fun c => (ip, c)) } =
      { st with
        wired := st.wired ++ (instrumentFrom 0 ops).map (fun c => (ip, c))
        trace := st.trace ++ dataRecordsFrom st.ranges ip ea 0 ops } := by
  have h1 : st.wired.filter (fun c => decide (c.1 = ip)) = [] := by
    rw [List.filter_eq_nil_iff]
    intro c hc
    simpa using hfresh c hc
  have h2 : ((instrumentFrom 0 ops).map (fun c => (ip, c))).filter (fun c => decide (c.1 = ip)) =
      (instrumentFrom 0 ops).map (fun c => (ip, c)) := by
    rw [List.filter_eq_self]
    intro c hc
    obtain ⟨d, _, rfl⟩ := List.mem_map.1 hc
    simp
  unfold execute
  simp only [List.filter_append, h1, h2, List.nil_append]
  rw [foldl_runCall_instrumentFrom]

theorem execute_unwired_site (ip : Nat) (ea : Nat → Nat) (st : State)
    (hfresh : ∀ c ∈ st.wired, c.1 ≠ ip) : execute ip ea st = st := by
  have h1 : st.wired.filter (fun c => decide (c.1 = ip)) = [] := by
    rw [List.filter_eq_nil_iff]
    intro c hc
    simpa using hfresh c hc
  unfold execute
  rw [h1]
  rfl

theorem mem_dataRecordsFrom (ranges : RangeSet) (ip : Nat) (ea : Nat → Nat) :
    ∀ (ops : List MemOp) (n j : Nat) (op : MemOp), ops[j]? = some op →
      in_range ranges (ea (n + j)) = true →
      (op.isRead = true →
        (fmtPtr ip ++ ": R " ++ fmtPtr (ea (n + j))) ∈ dataRecordsFrom ranges ip ea n ops) ∧
      (op.isWritten = true →
        (fmtPtr ip ++ ": W " ++ fmtPtr (ea (n + j))) ∈ dataRecordsFrom ranges ip ea n ops)
  | [], _, _, _, h, _ => by simp at h
  | o :: rest, n, 0, op, h, hin => by
    simp only [List.getElem?_cons_zero, Option.some.injEq] at h
    subst h
    simp only [Nat.add_zero] at hin ⊢
    constructor
    · intro hr
      simp [dataRecordsFrom, operandRecords, hr, hin]
    · intro hw
      simp [dataRecordsFrom, operandRecords, hw, hin]
  | o :: rest, n, j + 1, op, h, hin => by
    simp only [List.getElem?_cons_succ] at h
    have he : n + (j + 1) = n + 1 + j := by omega
    rw [he] at hin ⊢
    have ih := mem_dataRecordsFrom ranges ip ea rest (n + 1) j op h hin
    constructor
    · intro hr
      simp only [dataRecordsFrom, List.mem_append]
      exact Or.inr (ih.1 hr)
    · intro hw
      simp only [dataRecordsFrom, List.mem_append]
      exact Or.inr (ih.2 hw)

/-- C8 as stated fails: on the start state, `add_mem(1000, 1099)` logs
`add_mem 1000 1099`, not `watch 1000 1099`; `remove_mem` logs `remove_mem ...`,
not `unwatch ...`; `set_enable_trace(true)` logs `set_enable_trace 1`, not
`toggleTracing 1`. -/
theorem control_lines_are_not_named_watch_unwatch_toggleTracing :
    (add_mem 1000 1099 main).trace = ["add_mem 1000 1099"] ∧
      (add_mem 1000 1099 main).trace ≠ ["watch 1000 1099"] ∧
      (remove_mem 1000 1099 main).trace = ["remove_mem 1000 1099"] ∧
      (remove_mem 1000 1099 main).trace ≠ ["unwatch 1000 1099"] ∧
      (set_enable_trace true main).trace = ["set_enable_trace 1"] ∧
      (set_enable_trace true main).trace ≠ ["toggleTracing 1"] := by
  decide

/-- C8, amended: each control call appends exactly one line to the log, in call
order, whose keyword is the name of the called function: `add_mem <start>
<end>`, `remove_mem <start> <end>` and `set_enable_trace <0|1>`, the bounds in
decimal.  In the scenario `add_mem(1000,1099)`; `set_enable_trace(true)`; an
instruction with one written operand is discovered and writes to 1050, then to
2000; `Fini`: the log is exactly `add_mem 1000 1099`, `set_enable_trace 1`,
`<ip>: W 0x41a`, `#eof`. -/
theorem control_calls_log_one_line (st : State) (s e : Nat) (b : Bool) (ip : Nat) :
    (add_mem s e st).trace = st.trace ++ ["add_mem " ++ Nat.repr s ++ " " ++ Nat.repr e] ∧
      (remove_mem s e st).trace =
        st.trace ++ ["remove_mem " ++ Nat.repr s ++ " " ++ Nat.repr e] ∧
      (set_enable_trace b st).trace =
        st.trace ++ ["set_enable_trace " ++ (if b then "1" else "0")] ∧
      (Fini st).trace = st.trace ++ ["#eof"] ∧
      (Fini (execute ip (fun _ => 2000) (execute ip (fun _ => 1050)
        (Instruction { addr := ip, memOps := [{ isRead := false, isWritten := true }] }
          (set_enable_trace true (add_mem 1000 1099 main)))))).trace =
        ["add_mem 1000 1099", "set_enable_trace 1", fmtPtr ip ++ ": W 0x41a", "#eof"] := by
  have k1 : "add_mem" ++ " " = "add_mem " := by decide
  have k2 : "remove_mem" ++ " " = "remove_mem " := by decide
  have k3 : "set_enable_trace" ++ " " = "set_enable_trace " := by decide
  refine ⟨?_, ?_, ?_, rfl, ?_⟩
  · simp only [add_mem, fprintf, fmtULL, k1]
  · simp only [remove_mem, fprintf, fmtULL, k2]
  · simp only [set_enable_trace, fprintf, fmtBool, k3]
  · have hin1 : in_range [((1000 : Int), (1099 : Int))] 1050 = true := by decide
    have hin2 : in_range [((1000 : Int), (1099 : Int))] 2000 = false := by decide
    have hr : RangeSet.insert [] (mkRange 1000 1099) = [((1000 : Int), (1099 : Int))] := by decide
    have hl1 : "add_mem" ++ " " ++ fmtULL 1000 ++ " " ++ fmtULL 1099 = "add_mem 1000 1099" := by
      decide
    have hl2 : "set_enable_trace" ++ " " ++ fmtBool true = "set_enable_trace 1" := by decide
    have hp : fmtPtr 1050 = "0x41a" := by decide
    simp [Fini, execute, Instruction, set_enable_trace, add_mem, fprintf, main, instrumentFrom,
      operandCalls, runCall, RecordMemWrite, hin1, hin2, hr, hl1, hl2, hp]
    have hw : ": W " ++ "0x41a" = ": W 0x41a" := by decide
    refine ⟨by decide, by decide, ?_⟩
    rw [String.append_assoc, hw]

/-- C9: the gate is false at startup.  `Instruction` inserts nothing when
`enableTrace` is false; when it is true it inserts, at the instruction, one
`RecordMemRead` call per read memory operand and one `RecordMemWrite` call per
written memory operand, and changes nothing else.  `set_enable_trace` sets the
gate and leaves the registry and the inserted calls as they are.  Hence, for an
instruction no call was inserted at before: discovered while the gate is false,
its execution after `set_enable_trace(true)` changes nothing; discovered while
the gate is true, its execution after `set_enable_trace(false)` logs the data
records of its operands whose addresses are in range; discovered after
`set_enable_trace(true)`, its execution logs them as well, and these records
hold a line for every read or written operand whose address is in range. -/
theorem install_time_gating (st : State) (ins : INS) (b : Bool) (ea : Nat → Nat)
    (hfresh : ∀ c ∈ st.wired, c.1 ≠ ins.addr) :
    main.enableTrace = false ∧
      (st.enableTrace = false → Instruction ins st = st) ∧
      (st.enableTrace = true → Instruction ins st =
        { st with wired := st.wired ++ (instrumentFrom 0 ins.memOps).map (fun c => (ins.addr, c)) }) ∧
      (∀ m, (instrumentFrom 0 ins.memOps).count (Call.read m) =
        if (ins.memOps[m]?.map MemOp.isRead) = some true then 1 else 0) ∧
      (∀ m, (instrumentFrom 0 ins.memOps).count (Call.write m) =
        if (ins.memOps[m]?.map MemOp.isWritten) = some true then 1 else 0) ∧
      ((set_enable_trace b st).enableTrace = b ∧ (set_enable_trace b st).wired = st.wired ∧
        (set_enable_trace b st).ranges = st.ranges) ∧
      (st.enableTrace = false →
        execute ins.addr ea (set_enable_trace true (Instruction ins st)) =
          set_enable_trace true (Instruction ins st)) ∧
      (st.enableTrace = true →
        (execute ins.addr ea (set_enable_trace false (Instruction ins st))).trace =
          (set_enable_trace false (Instruction ins st)).trace ++
            dataRecordsFrom st.ranges ins.addr ea 0 ins.memOps) ∧
      ((execute ins.addr ea (Instruction ins (set_enable_trace true st))).trace =
          (Instruction ins (set_enable_trace true st)).trace ++
            dataRecordsFrom st.ranges ins.addr ea 0 ins.memOps) ∧
      (∀ m op, ins.memOps[m]? = some op → in_range st.ranges (ea m) = true →
        (op.isRead = true → (fmtPtr ins.addr ++ ": R " ++ fmtPtr (ea m)) ∈
          dataRecordsFrom st.ranges ins.addr ea 0 ins.memOps) ∧
        (op.isWritten = true → (fmtPtr ins.addr ++ ": W " ++ fmtPtr (ea m)) ∈
          dataRecordsFrom st.ranges ins.addr ea 0 ins.memOps)) := by
  refine ⟨rfl, ?_, ?_, ?_, ?_, ⟨rfl, rfl, rfl⟩, ?_, ?_, ?_, ?_⟩
  · intro h
    simp [Instruction, h]
  · intro h
    simp [Instruction, h]
  · intro m
    simpa using count_instrumentFrom_read ins.memOps 0 m
  · intro m
    simpa using count_instrumentFrom_write ins.memOps 0 m
  · intro h
    have h1 : Instruction ins st = st := by simp [Instruction, h]
    rw [h1]
    exact execute_unwired_site ins.addr ea _ hfresh
  · intro h
    have h1 : set_enable_trace false (Instruction ins st) =
        { (set_enable_trace false st) with
          wired := (set_enable_trace false st).wired ++
            (instrumentFrom 0 ins.memOps).map (fun c => (ins.addr, c)) } := by
      simp [Instruction, h, set_enable_trace, fprintf]
    rw [h1, execute_fresh_site ins.addr ea (set_enable_trace false st) ins.memOps hfresh]
    rfl
  · have h1 : Instruction ins (set_enable_trace true st) =
        { (set_enable_trace true st) with
          wired := (set_enable_trace true st).wired ++
            (instrumentFrom 0 ins.memOps).map (fun c => (ins.addr, c)) } := by
      simp [Instruction, set_enable_trace, fprintf]
    rw [h1, execute_fresh_site ins.addr ea (set_enable_trace true st) ins.memOps hfresh]
    rfl
  · intro m op hm hin
    have h := mem_dataRecordsFrom st.ranges ins.addr ea ins.memOps 0 m op hm
      (by simpa using hin)
    simpa using h

/-- C9 on the start state with the registry `[1000, 1099]`, for an instruction at
`4198400` with one written operand whose address is 1050: discovered before
`set_enable_trace(true)` it logs nothing afterwards; discovered after it, it
logs the write; and it keeps logging after `set_enable_trace(false)`. -/
theorem install_time_gating_witness :
    (∀ c ∈ (add_mem 1000 1099 main).wired, c.1 ≠ 4198400) ∧
      (execute 4198400 (fun _ => 1050) (set_enable_trace true
        (Instruction { addr := 4198400, memOps := [{ isRead := false, isWritten := true }] }
          (add_mem 1000 1099 main)))).trace =
        ["add_mem 1000 1099", "set_enable_trace 1"] ∧
      (execute 4198400 (fun _ => 1050)
        (Instruction { addr := 4198400, memOps := [{ isRead := false, isWritten := true }] }
          (set_enable_trace true (add_mem 1000 1099 main)))).trace =
        ["add_mem 1000 1099", "set_enable_trace 1", "0x401000: W 0x41a"] ∧
      (execute 4198400 (fun _ => 1050) (set_enable_trace false
        (Instruction { addr := 4198400, memOps := [{ isRead := false, isWritten := true }] }
          (set_enable_trace true (add_mem 1000 1099 main))))).trace =
        ["add_mem 1000 1099", "set_enable_trace 1", "set_enable_trace 0",
          "0x401000: W 0x41a"] :=
  ⟨by decide,
    (congrArg State.trace ((install_time_gating (add_mem 1000 1099 main)
      { addr := 4198400, memOps := [{ isRead := false, isWritten := true }] } true
      (fun _ => 1050) (by decide)).2.2.2.2.2.2.1 rfl)).trans (by decide),
    ((install_time_gating (add_mem 1000 1099 main)
      { addr := 4198400, memOps := [{ isRead := false, isWritten := true }] } true
      (fun _ => 1050) (by decide)).2.2.2.2.2.2.2.2.1).trans (by decide),
    ((install_time_gating (set_enable_trace true (add_mem 1000 1099 main))
      { addr := 4198400, memOps := [{ isRead := false, isWritten := true }] } true
      (fun _ => 1050) (by decide)).2.2.2.2.2.2.2.1 rfl).trans (by decide)⟩

end SelectivePintrace
